import Mathlib

/-!
Verification of the duotone photo-editor pixel pipeline.

The embedding below translates the pixel-level core of the repository:
  * `modules/image-core.js` : `resizeImageToBounds`, `applyGreyscale`,
    `applyAutoContrast`, `applyMidtoneContrast`
  * `modules/filters/duotone.js` : `applyDuotone`
  * `modules/utils.js` : `hexToRgb`, `clamp`

Numeric model: JavaScript number arithmetic is embedded over `ℚ` (the
source's decimal literals are exact rationals, and all expressions here
are short enough that exact arithmetic is the intended semantics).
`ImageData.data` is a `Uint8ClampedArray`; assigning a number to one of
its slots applies ECMAScript `ToUint8Clamp`: clamp to [0,255] and round
to the nearest integer with ties going to the even integer.  That store
conversion is modelled by `toUint8Clamp`.  A flat RGBA buffer walked
with stride 4 is modelled as a `List Pixel`.  `parseInt(s, 16)`
returning `NaN` (no leading hex digit) is modelled as `Option.none`.
Division by zero, which in JavaScript produces `Infinity`, is the one
point where `ℚ` (where `q / 0 = 0`) diverges from the source; the only
reachable such division is flagged where it occurs (`resizeStep2`).
-/

/-- One RGBA pixel: four consecutive bytes of `ImageData.data`. -/
structure Pixel where
  r : ℕ
  g : ℕ
  b : ℕ
  a : ℕ
deriving DecidableEq, Repr

/-- ECMAScript `ToUint8Clamp`: the conversion applied when a number is
stored into a `Uint8ClampedArray` slot (clamp to [0,255], round to
nearest, ties to even). -/
def toUint8Clamp (q : ℚ) : ℕ :=
  if q ≤ 0 then 0
  else if 255 ≤ q then 255
  else
    let f := (⌊q⌋).toNat
    if (f : ℚ) + 1/2 < q then f + 1
    else if q < (f : ℚ) + 1/2 then f
    else if f % 2 = 0 then f else f + 1

/-- `clamp(value, min, max)` from `modules/utils.js`:
`Math.max(min, Math.min(value, max))`. -/
def clamp (value mn mx : ℚ) : ℚ :=
  max mn (min value mx)

/-- The BT.709 luma expression of `applyGreyscale`
(`image-core.js` line 49): `0.2126*R + 0.7152*G + 0.0722*B`. -/
def lumaQ (r g b : ℕ) : ℚ :=
  0.2126 * (r : ℚ) + 0.7152 * (g : ℚ) + 0.0722 * (b : ℚ)

/-- Body of the `applyGreyscale` loop for one pixel: the luma is
computed from the original R,G,B, then stored into all three colour
slots; the alpha slot is not touched. -/
def greyPixel (p : Pixel) : Pixel :=
  let v := toUint8Clamp (lumaQ p.r p.g p.b)
  ⟨v, v, v, p.a⟩

/-- `applyGreyscale` from `modules/image-core.js` (lines 46–55). -/
def applyGreyscale (img : List Pixel) : List Pixel :=
  img.map greyPixel

/-- `histogram[v]` after the counting loop of `applyAutoContrast`
(lines 66–68): the number of pixels whose channel-0 value is `v`. -/
def histCount (img : List Pixel) (v : ℕ) : ℕ :=
  (img.filter (fun p => p.r = v)).length

/-- The `minVal` scan of `applyAutoContrast` (lines 70–73):
`while (minVal < 255 && histogram[minVal] === 0) minVal++`.
The loop increments `minVal` at most 255 times, so fuel 255 from the
start value 0 is exact. -/
def scanMinAux (img : List Pixel) : ℕ → ℕ → ℕ
  | 0, i => i
  | fuel + 1, i =>
    if i < 255 ∧ histCount img i = 0 then scanMinAux img fuel (i + 1) else i

/-- The `maxVal` scan of `applyAutoContrast` (lines 74–77):
`while (maxVal > 0 && histogram[maxVal] === 0) maxVal--`. -/
def scanMaxAux (img : List Pixel) : ℕ → ℕ → ℕ
  | 0, i => i
  | fuel + 1, i =>
    if 0 < i ∧ histCount img i = 0 then scanMaxAux img fuel (i - 1) else i

/-- `minVal` as computed by `applyAutoContrast`. -/
def minValOf (img : List Pixel) : ℕ :=
  scanMinAux img 255 0

/-- `maxVal` as computed by `applyAutoContrast`. -/
def maxValOf (img : List Pixel) : ℕ :=
  scanMaxAux img 255 255

/-- Body of the stretch loop of `applyAutoContrast` (lines 84–89):
`newVal = (data[i] - minVal) * (255 / range)`, stored through
`clamp(newVal, 0, 255)`, then copied into the G and B slots. -/
def acPixel (minVal range : ℕ) (p : Pixel) : Pixel :=
  let newVal : ℚ := ((p.r : ℚ) - (minVal : ℚ)) * (255 / (range : ℚ))
  let v := toUint8Clamp (clamp newVal 0 255)
  ⟨v, v, v, p.a⟩

/-- `applyAutoContrast` from `modules/image-core.js` (lines 62–91). -/
def applyAutoContrast (img : List Pixel) : List Pixel :=
  let minVal := minValOf img
  let maxVal := maxValOf img
  if minVal ≥ maxVal then img
  else img.map (acPixel minVal (maxVal - minVal))

/-- Body of the `applyMidtoneContrast` loop (lines 101–107):
`val = data[i]/255 - 0.5; newVal = (val*factor + 0.5)*255`, stored
through `clamp(newVal, 0, 255)` and copied into G and B. -/
def mtPixel (factor : ℚ) (p : Pixel) : Pixel :=
  let val : ℚ := (p.r : ℚ) / 255 - 0.5
  let newVal : ℚ := (val * factor + 0.5) * 255
  let v := toUint8Clamp (clamp newVal 0 255)
  ⟨v, v, v, p.a⟩

/-- `applyMidtoneContrast` from `modules/image-core.js` (lines 99–109). -/
def applyMidtoneContrast (img : List Pixel) (factor : ℚ) : List Pixel :=
  img.map (mtPixel factor)

/-- An RGB triple as consumed by `applyDuotone`. -/
structure RGB where
  r : ℕ
  g : ℕ
  b : ℕ
deriving DecidableEq, Repr

/-- One interpolated channel of `applyDuotone` (duotone.js lines 19–21):
`clamp(Math.floor(dark*(1-alpha) + light*alpha), 0, 255)` stored into
the byte buffer. -/
def duoChannel (dark light : ℕ) (alpha : ℚ) : ℕ :=
  toUint8Clamp (clamp ((⌊(dark : ℚ) * (1 - alpha) + (light : ℚ) * alpha⌋ : ℤ) : ℚ) 0 255)

/-- Body of the `applyDuotone` loop for one pixel (duotone.js
lines 14–22): `alpha = data[i] / 255`, then each channel is
interpolated between the dark and light endpoints. -/
def duoPixel (darkRgb lightRgb : RGB) (p : Pixel) : Pixel :=
  let alpha : ℚ := (p.r : ℚ) / 255
  ⟨duoChannel darkRgb.r lightRgb.r alpha,
   duoChannel darkRgb.g lightRgb.g alpha,
   duoChannel darkRgb.b lightRgb.b alpha,
   p.a⟩

/-- `applyDuotone` from `modules/filters/duotone.js` (lines 12–24). -/
def applyDuotone (img : List Pixel) (darkRgb lightRgb : RGB) : List Pixel :=
  img.map (duoPixel darkRgb lightRgb)

/-- Step 1 of `resizeImageToBounds` (image-core.js lines 19–23): scale
down when the longest edge exceeds `maxLongest`, flooring both
dimensions. -/
def resizeStep1 (w h maxLongest : ℕ) : ℕ × ℕ :=
  if max w h > maxLongest then
    let scaleFactor : ℚ := (maxLongest : ℚ) / (max w h : ℚ)
    ((⌊(w : ℚ) * scaleFactor⌋).toNat, (⌊(h : ℚ) * scaleFactor⌋).toNat)
  else (w, h)

/-- Step 2 of `resizeImageToBounds` (image-core.js lines 26–30): scale
up when the shortest edge is below `minShortest`, flooring both
dimensions.  When `min w h = 0` the source divides by zero and the
scale factor is `Infinity`; in `ℚ` the division yields 0, so both
models agree that no in-range dimensions are produced. -/
def resizeStep2 (w h minShortest : ℕ) : ℕ × ℕ :=
  if min w h < minShortest then
    let scaleFactor : ℚ := (minShortest : ℚ) / (min w h : ℚ)
    ((⌊(w : ℚ) * scaleFactor⌋).toNat, (⌊(h : ℚ) * scaleFactor⌋).toNat)
  else (w, h)

/-- The dimension computation of `resizeImageToBounds`
(`modules/image-core.js` lines 15–30): the two edge bounds are applied
sequentially.  (The subsequent canvas resampling is an external drawing
surface and has no dimension content.) -/
def resizeImageToBounds (w h maxLongest minShortest : ℕ) : ℕ × ℕ :=
  let s1 := resizeStep1 w h maxLongest
  resizeStep2 s1.1 s1.2 minShortest

/-- One hexadecimal digit of `parseInt(·, 16)`: `0`–`9`, `a`–`f`,
`A`–`F`. -/
def hexDigitVal (c : Char) : Option ℕ :=
  if 48 ≤ c.toNat ∧ c.toNat ≤ 57 then some (c.toNat - 48)
  else if 97 ≤ c.toNat ∧ c.toNat ≤ 102 then some (c.toNat - 87)
  else if 65 ≤ c.toNat ∧ c.toNat ≤ 70 then some (c.toNat - 55)
  else none

/-- Accumulates the leading hexadecimal digits of a character list,
stopping (as `parseInt` does) at the first non-digit. -/
def parseIntHexAux : List Char → ℕ → ℕ
  | [], acc => acc
  | c :: cs, acc =>
    match hexDigitVal c with
    | some d => parseIntHexAux cs (acc * 16 + d)
    | none => acc

/-- `parseInt(s, 16)` on the strings this program produces: the value
of the longest prefix of hex digits, or `none` (JavaScript `NaN`) when
the string starts with no hex digit — in particular on the empty
string. -/
def parseIntHex (s : String) : Option ℕ :=
  match s.data with
  | [] => none
  | c :: _ =>
    match hexDigitVal c with
    | some _ => some (parseIntHexAux s.data 0)
    | none => none

/-- `String.prototype.slice(start, end)` for in-range non-negative
indices: the characters from `start` (inclusive) to `end` (exclusive),
clamped to the string's length. -/
def jsSlice (s : String) (start stop : ℕ) : String :=
  String.mk ((s.data.drop start).take (stop - start))

/-- The result record of `hexToRgb`; a field is `none` when the
corresponding `parseInt` call returned `NaN`. -/
structure HexRGB where
  r : Option ℕ
  g : Option ℕ
  b : Option ℕ
deriving DecidableEq, Repr

/-- `hexToRgb` from `modules/utils.js` (lines 8–13): parses
`hex.slice(1,3)`, `hex.slice(3,5)`, `hex.slice(5,7)` in base 16. -/
def hexToRgb (hex : String) : HexRGB :=
  ⟨parseIntHex (jsSlice hex 1 3),
   parseIntHex (jsSlice hex 3 5),
   parseIntHex (jsSlice hex 5 7)⟩

/-- Two pixels agree within one least-significant bit on every colour
channel and exactly on alpha. -/
def closePx (p q : Pixel) : Prop :=
  Nat.dist p.r q.r ≤ 1 ∧ Nat.dist p.g q.g ≤ 1 ∧
    Nat.dist p.b q.b ≤ 1 ∧ p.a = q.a

instance (p q : Pixel) : Decidable (closePx p q) := by
  unfold closePx; infer_instance

/-! ### Helper lemmas about the byte-store conversion -/

theorem clamp_eq_self {q : ℚ} (h0 : 0 ≤ q) (h1 : q ≤ 255) : clamp q 0 255 = q := by
  unfold clamp
  rw [min_eq_left h1, max_eq_right h0]

theorem toUint8Clamp_le (q : ℚ) : toUint8Clamp q ≤ 255 := by
  have hq : ¬ (255 : ℚ) ≤ q → ⌊q⌋ < 255 := by
    intro h
    have h1 : (⌊q⌋ : ℚ) ≤ q := Int.floor_le q
    have h2 : (⌊q⌋ : ℚ) < 255 := lt_of_le_of_lt h1 (not_le.mp h)
    exact_mod_cast h2
  simp only [toUint8Clamp]
  split_ifs with h1 h2 h3 h4 h5
  · omega
  · omega
  · have := hq h2; omega
  · have := hq h2; omega
  · have := hq h2; omega
  · have := hq h2; omega

theorem toUint8Clamp_natCast (n : ℕ) (h : n ≤ 255) : toUint8Clamp (n : ℚ) = n := by
  simp only [toUint8Clamp, Int.floor_natCast, Int.toNat_natCast]
  split_ifs with h1 h2 h3 h4 h5
  · have h0 : n ≤ 0 := by exact_mod_cast h1
    omega
  · have h255 : (255 : ℕ) ≤ n := by exact_mod_cast h2
    omega
  · exact absurd h3 (by push_neg; linarith)
  · rfl
  · exact absurd (by linarith : (n : ℚ) < (n : ℚ) + 1/2) h4
  · exact absurd (by linarith : (n : ℚ) < (n : ℚ) + 1/2) h4

theorem toUint8Clamp_clamp_natCast (n : ℕ) (h : n ≤ 255) :
    toUint8Clamp (clamp (n : ℚ) 0 255) = n := by
  rw [clamp_eq_self (by positivity) (by exact_mod_cast h)]
  exact toUint8Clamp_natCast n h

/-! ### Helper lemmas about the histogram and its scans -/

theorem histCount_ne_zero_of_mem {img : List Pixel} {p : Pixel} {v : ℕ}
    (hp : p ∈ img) (hr : p.r = v) : histCount img v ≠ 0 := by
  have hm : p ∈ img.filter (fun p => p.r = v) :=
    List.mem_filter.mpr ⟨hp, by simp [hr]⟩
  have := List.length_pos.mpr (List.ne_nil_of_mem hm)
  unfold histCount
  omega

theorem exists_mem_of_histCount_ne_zero {img : List Pixel} {v : ℕ}
    (h : histCount img v ≠ 0) : ∃ p ∈ img, p.r = v := by
  unfold histCount at h
  have hne : img.filter (fun p => p.r = v) ≠ [] := by
    intro hnil
    rw [hnil] at h
    exact h rfl
  obtain ⟨p, hp⟩ := List.exists_mem_of_ne_nil _ hne
  refine ⟨p, (List.mem_filter.mp hp).1, ?_⟩
  have := (List.mem_filter.mp hp).2
  simpa using this

theorem histCount_eq_zero {img : List Pixel} {v : ℕ}
    (h : ∀ p ∈ img, p.r ≠ v) : histCount img v = 0 := by
  unfold histCount
  rw [List.length_eq_zero, List.filter_eq_nil_iff]
  intro p hp
  simpa using h p hp

theorem scanMinAux_le (img : List Pixel) (fuel : ℕ) :
    ∀ i, i ≤ 255 → scanMinAux img fuel i ≤ 255 := by
  induction fuel with
  | zero => intro i h; simpa only [scanMinAux] using h
  | succ n ih =>
    intro i h
    simp only [scanMinAux]
    split_ifs with hc
    · exact ih (i + 1) (by omega)
    · exact h

theorem scanMaxAux_le (img : List Pixel) (fuel : ℕ) :
    ∀ i, scanMaxAux img fuel i ≤ i := by
  induction fuel with
  | zero => intro i; simp only [scanMaxAux]; omega
  | succ n ih =>
    intro i
    simp only [scanMaxAux]
    split_ifs with hc
    · have := ih (i - 1); omega
    · omega

theorem scanMinAux_stop (img : List Pixel) (fuel : ℕ) :
    ∀ i, i ≤ 255 → 255 ≤ fuel + i →
      scanMinAux img fuel i = 255 ∨ histCount img (scanMinAux img fuel i) ≠ 0 := by
  induction fuel with
  | zero =>
    intro i h1 h2
    left
    simp only [scanMinAux]
    omega
  | succ n ih =>
    intro i h1 h2
    simp only [scanMinAux]
    split_ifs with hc
    · exact ih (i + 1) (by omega) (by omega)
    · rcases not_and_or.mp hc with h | h
      · left; omega
      · right; exact h

theorem scanMaxAux_stop (img : List Pixel) (fuel : ℕ) :
    ∀ i, i ≤ fuel →
      scanMaxAux img fuel i = 0 ∨ histCount img (scanMaxAux img fuel i) ≠ 0 := by
  induction fuel with
  | zero =>
    intro i h1
    left
    simp only [scanMaxAux]
    omega
  | succ n ih =>
    intro i h1
    simp only [scanMaxAux]
    split_ifs with hc
    · exact ih (i - 1) (by omega)
    · rcases not_and_or.mp hc with h | h
      · left; omega
      · right; exact h

theorem scanMinAux_flat (img : List Pixel) (v : ℕ) (hv : histCount img v ≠ 0)
    (hother : ∀ w, w ≠ v → histCount img w = 0) (hv255 : v ≤ 255) (fuel : ℕ) :
    ∀ i, i ≤ v → 255 ≤ fuel + i → scanMinAux img fuel i = v := by
  induction fuel with
  | zero =>
    intro i h1 h2
    simp only [scanMinAux]
    omega
  | succ n ih =>
    intro i h1 h2
    simp only [scanMinAux]
    split_ifs with hc
    · rcases Nat.eq_or_lt_of_le h1 with he | hlt
      · exact absurd hc.2 (he ▸ hv)
      · exact ih (i + 1) hlt (by omega)
    · rcases Nat.eq_or_lt_of_le h1 with he | hlt
      · exact he
      · exact absurd ⟨by omega, hother i (by omega)⟩ hc

theorem scanMaxAux_flat (img : List Pixel) (v : ℕ) (hv : histCount img v ≠ 0)
    (hother : ∀ w, w ≠ v → histCount img w = 0) (fuel : ℕ) :
    ∀ i, v ≤ i → i ≤ fuel → scanMaxAux img fuel i = v := by
  induction fuel with
  | zero =>
    intro i h1 h2
    simp only [scanMaxAux]
    omega
  | succ n ih =>
    intro i h1 h2
    simp only [scanMaxAux]
    split_ifs with hc
    · rcases Nat.eq_or_lt_of_le h1 with he | hlt
      · exact absurd hc.2 (he ▸ hv)
      · exact ih (i - 1) (by omega) (by omega)
    · rcases Nat.eq_or_lt_of_le h1 with he | hlt
      · exact he.symm
      · exact absurd ⟨by omega, hother i (by omega)⟩ hc

theorem map_self_of_forall {α : Type} (l : List α) (f : α → α)
    (h : ∀ x ∈ l, f x = x) : l.map f = l := by
  induction l with
  | nil => rfl
  | cons a t ih =>
    simp only [List.map_cons, h a (List.mem_cons_self a t),
      ih (fun x hx => h x (List.mem_cons_of_mem a hx))]

/-! ### Branches of `applyAutoContrast` -/

theorem applyAutoContrast_of_ge (img : List Pixel)
    (h : minValOf img ≥ maxValOf img) : applyAutoContrast img = img := by
  simp only [applyAutoContrast]
  rw [if_pos h]

theorem applyAutoContrast_of_lt (img : List Pixel)
    (h : minValOf img < maxValOf img) :
    applyAutoContrast img = img.map (acPixel (minValOf img) (maxValOf img - minValOf img)) := by
  simp only [applyAutoContrast]
  rw [if_neg (by omega)]

/-! ### Floor-scaling bounds used by the resize policy -/

theorem scanMinAux_allzero (img : List Pixel) (hz : ∀ v, histCount img v = 0) (fuel : ℕ) :
    ∀ i, i ≤ 255 → 255 ≤ fuel + i → scanMinAux img fuel i = 255 := by
  induction fuel with
  | zero =>
    intro i h1 h2
    simp only [scanMinAux]
    omega
  | succ n ih =>
    intro i h1 h2
    simp only [scanMinAux]
    split_ifs with hc
    · exact ih (i + 1) (by omega) (by omega)
    · rcases not_and_or.mp hc with h | h
      · omega
      · exact absurd (hz i) h

theorem scanMaxAux_allzero (img : List Pixel) (hz : ∀ v, histCount img v = 0) (fuel : ℕ) :
    ∀ i, i ≤ fuel → scanMaxAux img fuel i = 0 := by
  induction fuel with
  | zero =>
    intro i h1
    simp only [scanMaxAux]
    omega
  | succ n ih =>
    intro i h1
    simp only [scanMaxAux]
    split_ifs with hc
    · exact ih (i - 1) (by omega)
    · rcases not_and_or.mp hc with h | h
      · omega
      · exact absurd (hz i) h

/-! ### Claim theorems: resize policy -/

/-- C2: a 2000×100 input with `maxLongestEdge = 1000`,
`minShortestEdge = 300` is first clamped to 1000×50 (factor 0.5), and
since 50 < 300 it is then upscaled by factor 6 to 6000×300: the two
bounds are applied sequentially. -/
theorem resize_2000x100_end_to_end :
    resizeStep1 2000 100 1000 = (1000, 50) ∧
      resizeImageToBounds 2000 100 1000 300 = (6000, 300) ∧
      (6000 : ℕ) = 6 * 1000 ∧ (300 : ℕ) = 6 * 50 := by
  refine ⟨?_, ?_, by norm_num, by norm_num⟩
  · norm_num [resizeStep1]
    simp
  · norm_num [resizeImageToBounds, resizeStep1, resizeStep2]
    simp
    norm_num
    decide

/-! ### Claim theorems: auto-contrast degenerate case -/

/-- C4: on an image whose pixels all share one channel-0 value (or an
empty image), the histogram scans give `minVal ≥ maxVal` and
`applyAutoContrast` returns its input unchanged — no stretch, no
error. -/
theorem autoContrast_flat_unchanged (img : List Pixel) (v : ℕ) (hv : v ≤ 255)
    (hflat : ∀ p ∈ img, p.r = v) : applyAutoContrast img = img := by
  rcases img with _ | ⟨q, t⟩
  · refine applyAutoContrast_of_ge [] ?_
    have hz : ∀ w, histCount [] w = 0 := fun w => rfl
    have hmin : minValOf [] = 255 := scanMinAux_allzero [] hz 255 0 (by omega) (by omega)
    have hmax : maxValOf [] = 0 := scanMaxAux_allzero [] hz 255 255 (by omega)
    omega
  · have hq : q.r = v := hflat q (List.mem_cons_self q t)
    have hv0 : histCount (q :: t) v ≠ 0 :=
      histCount_ne_zero_of_mem (List.mem_cons_self q t) hq
    have hoth : ∀ w, w ≠ v → histCount (q :: t) w = 0 := by
      intro w hw
      refine histCount_eq_zero ?_
      intro p hp
      rw [hflat p hp]
      omega
    have hmin : minValOf (q :: t) = v :=
      scanMinAux_flat (q :: t) v hv0 hoth hv 255 0 (Nat.zero_le v) (by omega)
    have hmax : maxValOf (q :: t) = v :=
      scanMaxAux_flat (q :: t) v hv0 hoth 255 255 hv (le_refl 255)
    exact applyAutoContrast_of_ge _ (by omega)

/-- Witness for C4: a two-pixel image with every value 128 is returned
byte-identical. -/
theorem autoContrast_flat_unchanged_witness :
    applyAutoContrast [⟨128, 128, 128, 255⟩, ⟨128, 128, 128, 0⟩]
      = [⟨128, 128, 128, 255⟩, ⟨128, 128, 128, 0⟩] :=
  autoContrast_flat_unchanged _ 128 (by norm_num) (by decide)

/-! ### Claim theorems: hex colour parsing -/

theorem hexDigitVal_le (c : Char) (d : ℕ) (h : hexDigitVal c = some d) : d ≤ 15 := by
  unfold hexDigitVal at h
  split_ifs at h with h1 h2 h3
  · simp only [Option.some.injEq] at h
    omega
  · simp only [Option.some.injEq] at h
    omega
  · simp only [Option.some.injEq] at h
    omega

theorem parseIntHex_two (c1 c2 : Char) (d1 d2 : ℕ)
    (h1 : hexDigitVal c1 = some d1) (h2 : hexDigitVal c2 = some d2) :
    parseIntHex (String.mk [c1, c2]) = some (16 * d1 + d2) := by
  simp only [parseIntHex, parseIntHexAux, h1, h2]
  norm_num
  omega

/-- C8 (corrected): on a `#`-prefixed 6-hex-digit string, `hexToRgb`
parses the three 2-digit pairs as base-16 bytes, each in [0,255]; in
particular `#1b602f ↦ (27, 96, 47)` and `#f784c5 ↦ (247, 132, 197)`.
(3-digit strings do not decode this way: see the counterexample.) -/
theorem hexToRgb_six_digit (c1 c2 c3 c4 c5 c6 : Char) (d1 d2 d3 d4 d5 d6 : ℕ)
    (h1 : hexDigitVal c1 = some d1) (h2 : hexDigitVal c2 = some d2)
    (h3 : hexDigitVal c3 = some d3) (h4 : hexDigitVal c4 = some d4)
    (h5 : hexDigitVal c5 = some d5) (h6 : hexDigitVal c6 = some d6) :
    hexToRgb (String.mk ['#', c1, c2, c3, c4, c5, c6])
        = ⟨some (16 * d1 + d2), some (16 * d3 + d4), some (16 * d5 + d6)⟩ ∧
      16 * d1 + d2 ≤ 255 ∧ 16 * d3 + d4 ≤ 255 ∧ 16 * d5 + d6 ≤ 255 ∧
      hexToRgb "#1b602f" = ⟨some 27, some 96, some 47⟩ ∧
      hexToRgb "#f784c5" = ⟨some 247, some 132, some 197⟩ := by
  refine ⟨?_, ?_, ?_, ?_, ?_, ?_⟩
  · have e1 : jsSlice (String.mk ['#', c1, c2, c3, c4, c5, c6]) 1 3 = String.mk [c1, c2] := by
      simp [jsSlice]
    have e2 : jsSlice (String.mk ['#', c1, c2, c3, c4, c5, c6]) 3 5 = String.mk [c3, c4] := by
      simp [jsSlice]
    have e3 : jsSlice (String.mk ['#', c1, c2, c3, c4, c5, c6]) 5 7 = String.mk [c5, c6] := by
      simp [jsSlice]
    unfold hexToRgb
    rw [e1, e2, e3, parseIntHex_two c1 c2 d1 d2 h1 h2, parseIntHex_two c3 c4 d3 d4 h3 h4,
      parseIntHex_two c5 c6 d5 d6 h5 h6]
  · have b1 := hexDigitVal_le c1 d1 h1
    have b2 := hexDigitVal_le c2 d2 h2
    omega
  · have b3 := hexDigitVal_le c3 d3 h3
    have b4 := hexDigitVal_le c4 d4 h4
    omega
  · have b5 := hexDigitVal_le c5 d5 h5
    have b6 := hexDigitVal_le c6 d6 h6
    omega
  · norm_num [hexToRgb, jsSlice, parseIntHex, parseIntHexAux, hexDigitVal]
    decide
  · norm_num [hexToRgb, jsSlice, parseIntHex, parseIntHexAux, hexDigitVal]
    decide

/-- Witness for C8: the default dark colour string `#1b602f`. -/
theorem hexToRgb_six_digit_witness :
    hexToRgb (String.mk ['#', '1', 'b', '6', '0', '2', 'f'])
      = ⟨some (16 * 1 + 11), some (16 * 6 + 0), some (16 * 2 + 15)⟩ :=
  (hexToRgb_six_digit '1' 'b' '6' '0' '2' 'f' 1 11 6 0 2 15 (by decide) (by decide)
    (by decide) (by decide) (by decide) (by decide)).1

/-- Counterexample for C8 as stated: on the 3-hex-digit string `#abc`
the green component is parsed from the single digit `c` and the blue
component from the empty slice `hex.slice(5,7)`, so it is `NaN`
(`none`), not a base-16 byte in [0,255]. -/
theorem hexToRgb_three_digit_cex :
    hexToRgb "#abc" = ⟨some 171, some 12, none⟩ := by
  norm_num [hexToRgb, jsSlice, parseIntHex, parseIntHexAux, hexDigitVal]
  decide

/-! ### Claim theorems: greyscale rounding -/

theorem mtPixel_one (p : Pixel) (hg : p.g = p.r) (hb : p.b = p.r) (hr : p.r ≤ 255) :
    mtPixel 1 p = p := by
  simp only [mtPixel]
  have harith : (((p.r : ℚ) / 255 - 0.5) * 1 + 0.5) * 255 = (p.r : ℚ) := by
    ring
  rw [harith, toUint8Clamp_clamp_natCast p.r hr]
  rcases p with ⟨r, g, b, a⟩
  simp_all

/-- C6 (corrected): on a *greyscale* image (R=G=B bytes),
`applyMidtoneContrast` with factor 1.0 changes every channel value by
at most 1 (in exact arithmetic it is the identity) and keeps alpha.
The greyscale proviso is forced: the loop overwrites G and B with the
channel-0 result, so on non-grey input those channels can move
arbitrarily far (see the counterexample). -/
theorem midtone_factor_one_noop_grey (img : List Pixel)
    (hgrey : ∀ p ∈ img, p.g = p.r ∧ p.b = p.r ∧ p.r ≤ 255) :
    List.Forall₂ closePx img (applyMidtoneContrast img 1) := by
  unfold applyMidtoneContrast
  rw [List.forall₂_map_right_iff, List.forall₂_same]
  intro p hp
  obtain ⟨hg, hb, hr⟩ := hgrey p hp
  rw [mtPixel_one p hg hb hr]
  unfold closePx
  simp [Nat.dist_self]

/-- Witness for C6: a one-pixel greyscale image with value 10. -/
theorem midtone_factor_one_noop_grey_witness :
    List.Forall₂ closePx [⟨10, 10, 10, 4⟩] (applyMidtoneContrast [⟨10, 10, 10, 4⟩] 1) :=
  midtone_factor_one_noop_grey _ (by decide)

/-- Counterexample for C6 as stated: on the non-greyscale pixel
(0, 200, 7) the factor-1.0 pass returns (0, 0, 0): the green channel
moves by 200, far more than 1 LSB. -/
theorem midtone_factor_one_cex :
    ¬ List.Forall₂ closePx [⟨0, 200, 7, 3⟩] (applyMidtoneContrast [⟨0, 200, 7, 3⟩] 1) := by
  have heval : applyMidtoneContrast [⟨0, 200, 7, 3⟩] 1 = [⟨0, 0, 0, 3⟩] := by
    norm_num [applyMidtoneContrast, mtPixel, toUint8Clamp, clamp]
  rw [heval]
  intro hcon
  cases hcon with
  | cons h _ => exact absurd h (by decide)

/-! ### Claim theorems: black-to-white duotone is the identity -/

theorem duoChannel_bw (r : ℕ) (hr : r ≤ 255) :
    duoChannel 0 255 ((r : ℚ) / 255) = r := by
  unfold duoChannel
  have harith : ((0 : ℕ) : ℚ) * (1 - (r : ℚ) / 255) + ((255 : ℕ) : ℚ) * ((r : ℚ) / 255)
      = (r : ℚ) := by
    push_cast
    ring
  rw [harith, Int.floor_natCast, Int.cast_natCast]
  exact toUint8Clamp_clamp_natCast r hr

/-- C7: on a greyscale image (R=G=B bytes), `applyDuotone` with dark
colour (0,0,0) and light colour (255,255,255) reproduces the input
exactly: the `alpha = value/255` interpolation followed by floor,
clamp and byte store collapses to the identity on every channel, and
alpha is untouched. -/
theorem duotone_bw_identity (img : List Pixel)
    (hgrey : ∀ p ∈ img, p.g = p.r ∧ p.b = p.r ∧ p.r ≤ 255) :
    applyDuotone img ⟨0, 0, 0⟩ ⟨255, 255, 255⟩ = img := by
  unfold applyDuotone
  apply map_self_of_forall
  intro p hp
  obtain ⟨hg, hb, hr⟩ := hgrey p hp
  simp only [duoPixel, duoChannel_bw p.r hr]
  rcases p with ⟨r, g, b, a⟩
  simp_all

/-- Witness for C7: a three-pixel greyscale image. -/
theorem duotone_bw_identity_witness :
    applyDuotone [⟨37, 37, 37, 3⟩, ⟨0, 0, 0, 1⟩, ⟨255, 255, 255, 2⟩] ⟨0, 0, 0⟩ ⟨255, 255, 255⟩
      = [⟨37, 37, 37, 3⟩, ⟨0, 0, 0, 1⟩, ⟨255, 255, 255, 2⟩] :=
  duotone_bw_identity _ (by decide)

/-! ### Claim theorems: alpha passthrough and channel invariants -/

theorem map_a_of_pointwise {f : Pixel → Pixel} (hf : ∀ p, (f p).a = p.a) (img : List Pixel) :
    (img.map f).map Pixel.a = img.map Pixel.a := by
  rw [List.map_map]
  exact List.map_congr_left (fun p _ => hf p)

theorem greyPixel_a (p : Pixel) : (greyPixel p).a = p.a := by
  rcases p with ⟨r, g, b, a⟩
  rfl

theorem acPixel_a (minVal range : ℕ) (p : Pixel) : (acPixel minVal range p).a = p.a := by
  rcases p with ⟨r, g, b, a⟩
  rfl

theorem mtPixel_a (factor : ℚ) (p : Pixel) : (mtPixel factor p).a = p.a := by
  rcases p with ⟨r, g, b, a⟩
  rfl

theorem duoPixel_a (darkRgb lightRgb : RGB) (p : Pixel) :
    (duoPixel darkRgb lightRgb p).a = p.a := by
  rcases p with ⟨r, g, b, a⟩
  rfl

/-- C9: every stage — greyscale, auto-contrast, midtone contrast and
duotone — carries the alpha byte of every pixel through untouched. -/
theorem alpha_preserved_all_stages (img : List Pixel) (factor : ℚ) (darkRgb lightRgb : RGB) :
    (applyGreyscale img).map Pixel.a = img.map Pixel.a ∧
      (applyAutoContrast img).map Pixel.a = img.map Pixel.a ∧
      (applyMidtoneContrast img factor).map Pixel.a = img.map Pixel.a ∧
      (applyDuotone img darkRgb lightRgb).map Pixel.a = img.map Pixel.a := by
  refine ⟨?_, ?_, ?_, ?_⟩
  · exact map_a_of_pointwise greyPixel_a img
  · rcases le_or_lt (maxValOf img) (minValOf img) with hge | hlt
    · rw [applyAutoContrast_of_ge img hge]
    · rw [applyAutoContrast_of_lt img hlt]
      exact map_a_of_pointwise
        (acPixel_a (minValOf img) (maxValOf img - minValOf img)) img
  · exact map_a_of_pointwise (mtPixel_a factor) img
  · exact map_a_of_pointwise (duoPixel_a darkRgb lightRgb) img

/-- C10: greyscale and midtone contrast always emit R=G=B pixels, for
every input image; auto-contrast does so whenever its histogram is
non-degenerate (`minVal < maxVal`); and the per-pixel transforms of
auto-contrast, midtone contrast and duotone depend only on channel 0
and alpha of their input pixel, ignoring the input G and B values. -/
theorem channel_invariants (img : List Pixel) (factor : ℚ) (darkRgb lightRgb : RGB)
    (minVal range : ℕ) :
    (∀ p ∈ applyGreyscale img, p.r = p.g ∧ p.g = p.b) ∧
      (∀ p ∈ applyMidtoneContrast img factor, p.r = p.g ∧ p.g = p.b) ∧
      (minValOf img < maxValOf img →
        ∀ p ∈ applyAutoContrast img, p.r = p.g ∧ p.g = p.b) ∧
      (∀ p q : Pixel, p.r = q.r → p.a = q.a →
        acPixel minVal range p = acPixel minVal range q ∧
          mtPixel factor p = mtPixel factor q ∧
          duoPixel darkRgb lightRgb p = duoPixel darkRgb lightRgb q) := by
  refine ⟨?_, ?_, ?_, ?_⟩
  · intro p hp
    obtain ⟨q, _, rfl⟩ := List.mem_map.mp hp
    exact ⟨rfl, rfl⟩
  · intro p hp
    obtain ⟨q, _, rfl⟩ := List.mem_map.mp hp
    exact ⟨rfl, rfl⟩
  · intro hnd
    rw [applyAutoContrast_of_lt img hnd]
    intro p hp
    obtain ⟨q, _, rfl⟩ := List.mem_map.mp hp
    exact ⟨rfl, rfl⟩
  · intro p q h1 h2
    refine ⟨?_, ?_, ?_⟩
    · simp only [acPixel, h1, h2]
    · simp only [mtPixel, h1, h2]
    · simp only [duoPixel, h1, h2]

/-- Witness for C10: an image whose channel-0 histogram occupies 0 and
255 (non-degenerate, so the auto-contrast implication fires), with the
default midtone factor and duotone colours. -/
theorem channel_invariants_witness :
    (∀ p ∈ applyGreyscale [(⟨0, 5, 9, 1⟩ : Pixel), ⟨255, 4, 2, 0⟩], p.r = p.g ∧ p.g = p.b) ∧
      (∀ p ∈ applyMidtoneContrast [(⟨0, 5, 9, 1⟩ : Pixel), ⟨255, 4, 2, 0⟩] 1.5,
        p.r = p.g ∧ p.g = p.b) ∧
      (∀ p ∈ applyAutoContrast [(⟨0, 5, 9, 1⟩ : Pixel), ⟨255, 4, 2, 0⟩],
        p.r = p.g ∧ p.g = p.b) ∧
      (∀ p q : Pixel, p.r = q.r → p.a = q.a →
        acPixel 0 255 p = acPixel 0 255 q ∧
          mtPixel 1.5 p = mtPixel 1.5 q ∧
          duoPixel ⟨27, 96, 47⟩ ⟨247, 132, 197⟩ p = duoPixel ⟨27, 96, 47⟩ ⟨247, 132, 197⟩ q) :=
  have h := channel_invariants [⟨0, 5, 9, 1⟩, ⟨255, 4, 2, 0⟩] 1.5
    ⟨27, 96, 47⟩ ⟨247, 132, 197⟩ 0 255
  ⟨h.1, h.2.1, h.2.2.1 (by decide), h.2.2.2⟩

/-! ### Claim theorem: auto-contrast idempotence -/

theorem minValOf_stop (img : List Pixel) :
    minValOf img = 255 ∨ histCount img (minValOf img) ≠ 0 := by
  unfold minValOf
  exact scanMinAux_stop img 255 0 (by omega) (by omega)

theorem maxValOf_stop (img : List Pixel) :
    maxValOf img = 0 ∨ histCount img (maxValOf img) ≠ 0 := by
  unfold maxValOf
  exact scanMaxAux_stop img 255 255 (le_refl 255)

theorem maxValOf_le (img : List Pixel) : maxValOf img ≤ 255 := by
  unfold maxValOf
  exact scanMaxAux_le img 255 255

theorem scanMinAux_zero_occupied (img : List Pixel) (fuel : ℕ)
    (h : histCount img 0 ≠ 0) : scanMinAux img fuel 0 = 0 := by
  cases fuel with
  | zero => simp only [scanMinAux]
  | succ n =>
    simp only [scanMinAux]
    rw [if_neg]
    intro hc
    exact h hc.2

theorem scanMaxAux_top_occupied (img : List Pixel) (fuel : ℕ)
    (h : histCount img 255 ≠ 0) : scanMaxAux img fuel 255 = 255 := by
  cases fuel with
  | zero => simp only [scanMaxAux]
  | succ n =>
    simp only [scanMaxAux]
    rw [if_neg]
    intro hc
    exact h hc.2

theorem acPixel_at_min (mv rg : ℕ) (p : Pixel) (h : p.r = mv) :
    acPixel mv rg p = ⟨0, 0, 0, p.a⟩ := by
  simp only [acPixel, h]
  have hz : ((mv : ℚ) - (mv : ℚ)) * (255 / (rg : ℚ)) = 0 := by
    ring
  rw [hz]
  norm_num [clamp, toUint8Clamp]

theorem acPixel_at_max (mv mx : ℕ) (p : Pixel) (hlt : mv < mx) (h : p.r = mx) :
    acPixel mv (mx - mv) p = ⟨255, 255, 255, p.a⟩ := by
  simp only [acPixel, h]
  have hc : ((mx - mv : ℕ) : ℚ) = (mx : ℚ) - (mv : ℚ) := by
    push_cast [Nat.cast_sub (le_of_lt hlt)]
    ring
  have hne : (mx : ℚ) - (mv : ℚ) ≠ 0 := by
    have hx : (mv : ℚ) < (mx : ℚ) := by exact_mod_cast hlt
    exact sub_ne_zero.mpr (ne_of_gt hx)
  have hval : ((mx : ℚ) - (mv : ℚ)) * (255 / ((mx - mv : ℕ) : ℚ)) = 255 := by
    rw [hc]
    field_simp
  rw [hval]
  have hclamp : clamp (255 : ℚ) 0 255 = 255 := clamp_eq_self (by norm_num) (by norm_num)
  rw [hclamp]
  have h255 : toUint8Clamp ((255 : ℕ) : ℚ) = 255 := toUint8Clamp_natCast 255 (le_refl 255)
  norm_num at h255
  rw [h255]

theorem acPixel_identity (q : Pixel) (hr : q.r ≤ 255) (hg : q.g = q.r) (hb : q.b = q.r) :
    acPixel 0 255 q = q := by
  simp only [acPixel]
  have hval : ((q.r : ℚ) - ((0 : ℕ) : ℚ)) * (255 / ((255 : ℕ) : ℚ)) = (q.r : ℚ) := by
    push_cast
    ring_nf
  rw [hval, toUint8Clamp_clamp_natCast q.r hr]
  rcases q with ⟨r, g, b, a⟩
  simp_all

/-- C5: `applyAutoContrast` is idempotent on its own output: in the
degenerate branch it is the identity, and otherwise its output
histogram occupies both 0 (image of `minVal`) and 255 (image of
`maxVal`), so the second pass stretches [0,255] onto [0,255], which
the rounding store maps to the identity on every byte. -/
theorem autoContrast_idempotent (img : List Pixel) :
    applyAutoContrast (applyAutoContrast img) = applyAutoContrast img := by
  rcases le_or_lt (maxValOf img) (minValOf img) with hge | hlt
  · rw [applyAutoContrast_of_ge img hge, applyAutoContrast_of_ge img hge]
  · have hac := applyAutoContrast_of_lt img hlt
    rw [hac]
    have hmaxle : maxValOf img ≤ 255 := maxValOf_le img
    have hminocc : histCount img (minValOf img) ≠ 0 := by
      rcases minValOf_stop img with h | h
      · omega
      · exact h
    have hmaxocc : histCount img (maxValOf img) ≠ 0 := by
      rcases maxValOf_stop img with h | h
      · omega
      · exact h
    obtain ⟨pmin, hpmin, hpminr⟩ := exists_mem_of_histCount_ne_zero hminocc
    obtain ⟨pmax, hpmax, hpmaxr⟩ := exists_mem_of_histCount_ne_zero hmaxocc
    have h0occ : histCount
        (img.map (acPixel (minValOf img) (maxValOf img - minValOf img))) 0 ≠ 0 := by
      refine histCount_ne_zero_of_mem (List.mem_map_of_mem _ hpmin) ?_
      rw [acPixel_at_min (minValOf img) (maxValOf img - minValOf img) pmin hpminr]
    have h255occ : histCount
        (img.map (acPixel (minValOf img) (maxValOf img - minValOf img))) 255 ≠ 0 := by
      refine histCount_ne_zero_of_mem (List.mem_map_of_mem _ hpmax) ?_
      rw [acPixel_at_max (minValOf img) (maxValOf img) pmax hlt hpmaxr]
    have hminout : minValOf
        (img.map (acPixel (minValOf img) (maxValOf img - minValOf img))) = 0 := by
      unfold minValOf
      exact scanMinAux_zero_occupied _ 255 h0occ
    have hmaxout : maxValOf
        (img.map (acPixel (minValOf img) (maxValOf img - minValOf img))) = 255 := by
      unfold maxValOf
      exact scanMaxAux_top_occupied _ 255 h255occ
    rw [applyAutoContrast_of_lt _ (by omega), hminout, hmaxout]
    apply map_self_of_forall
    intro q hq
    obtain ⟨p, hp, rfl⟩ := List.mem_map.mp hq
    exact acPixel_identity _ (toUint8Clamp_le _) rfl rfl
